import Mathlib

/-!
Verification of the tabular core of `trappy`'s `cpu_power.py` and
`devfreq_power.py`: the mask codec, the label pivot with forward fill, and
the load/frequency aggregator. Each Python function is shallowly embedded as
an executable Lean definition over lists (a pandas column is a list aligned
with the row index; a missing cell (NaN) is `none`); numeric cells are `ℚ`.
-/

/- ===================== Mask codec ===================== -/

/-- Characters accepted as hexadecimal digits by a base-16 integer parse. -/
def isHexDigitChar (c : Char) : Bool :=
  c.isDigit || ('a' ≤ c && c ≤ 'f') || ('A' ≤ c && c ≤ 'F')

/-- Numeric value of a hexadecimal digit character. -/
def hexVal (c : Char) : Nat :=
  if c.isDigit then c.toNat - 48
  else if 'a' ≤ c then c.toNat - 87
  else c.toNat - 55

/-- Parse a nonempty run of hexadecimal digit characters as a base-16 natural
number; `none` when the run is empty or holds a non-hex character. -/
def hexDigitsVal (cs : List Char) : Option Nat :=
  match cs with
  | [] => none
  | _ :: _ =>
    if cs.all isHexDigitChar then
      some (cs.foldl (fun a c => 16 * a + hexVal c) 0)
    else none

/-- Split an optional single leading sign off a character list, returning the
sign as an integer factor together with the rest. -/
def splitSign (cs : List Char) : Int × List Char :=
  match cs with
  | c :: r => if c = '-' then (-1, r) else if c = '+' then (1, r) else (1, cs)
  | [] => (1, [])

/-- Strip an optional leading base marker `0x`/`0X` off a character list. -/
def stripHexMarker (cs : List Char) : List Char :=
  match cs with
  | a :: b :: r => if a = '0' ∧ (b = 'x' ∨ b = 'X') then r else cs
  | _ => cs

/-- Embedding of the Python builtin `int(s, 16)`: an optional sign, an
optional `0x`/`0X` marker, then one or more hexadecimal digits; `none` (the
`ValueError` of the builtin) on any other shape.  (Tolerance for surrounding
whitespace is not modelled; trace cpumask fields contain none.) -/
def pyIntHex (s : String) : Option Int :=
  (hexDigitsVal (stripHexMarker (splitSign s.data).2)).map
    (fun n => (splitSign s.data).1 * Int.ofNat n)

/-- Embedding of `mask.replace(",", "")`. -/
def removeCommas (s : String) : String :=
  ⟨s.data.filter (fun c => c ≠ ',')⟩

/-- Embedding of `sanitize_mask` (cpu_power.py): strip the commas of the
textual cpumask and parse the rest in base 16. -/
def sanitize_mask (mask : String) : Option Int :=
  pyIntHex (removeCommas mask)

/-- Embedding of Python `bin(value).count("1")`: the number of `'1'`
characters among the base-2 digits of the magnitude. -/
def popcount (n : Nat) : Nat :=
  (Nat.toDigits 2 n).count '1'

/-- Embedding of `num_cpus_in_mask` (cpu_power.py): strip commas, parse the
mask in base 16, count the 1 bits of the value. -/
def num_cpus_in_mask (mask : String) : Option Nat :=
  (pyIntHex (removeCommas mask)).map (fun v => popcount v.natAbs)

/-- Embedding of `cpus_to_mask` (cpu_power.py): OR together `1 << cpu` over
the given cpu indices. -/
def cpus_to_mask (cpus : List Nat) : Nat :=
  cpus.foldl (fun res cpu => res ||| (1 <<< cpu)) 0

/-- Embedding of `mask_to_cpus` (cpu_power.py): the positions of the 1 bits
of the mask, least-significant bit first.  (The source walks the reversed
binary digit string of the mask; reading those digits LSB-first is the
repeated division by two below.) -/
def mask_to_cpus (mask : Nat) : List Nat :=
  if h : mask = 0 then []
  else
    (if mask % 2 = 1 then [0] else []) ++ (mask_to_cpus (mask / 2)).map (· + 1)
termination_by mask
decreasing_by exact Nat.div_lt_self (Nat.pos_of_ne_zero h) Nat.one_lt_two

/-- Spec-side population count: the number of 1 bits of a natural number. -/
def specPopCount (n : Nat) : Nat :=
  if n = 0 then 0 else n % 2 + specPopCount (n / 2)
termination_by n
decreasing_by exact Nat.div_lt_self (Nat.pos_of_ne_zero (by assumption)) Nat.one_lt_two

/-- Spec-side notion of a valid textual base-16 integer: optional sign,
optional `0x`/`0X` marker, one or more hexadecimal digits. -/
def ValidHexInt (s : String) : Prop :=
  ∃ sgn mk ds : List Char,
    s.data = sgn ++ mk ++ ds ∧
    (sgn = [] ∨ sgn = ['-'] ∨ sgn = ['+']) ∧
    (mk = [] ∨ mk = ['0', 'x'] ∨ mk = ['0', 'X']) ∧
    ds ≠ [] ∧ (∀ c ∈ ds, isHexDigitChar c = true)

/- ===================== Mask codec lemmas ===================== -/

theorem mem_mask_to_cpus (m : Nat) : ∀ c, c ∈ mask_to_cpus m ↔ m.testBit c := by
  induction m using Nat.strong_induction_on with
  | _ m ih =>
    intro c
    by_cases h : m = 0
    · subst h
      simp [mask_to_cpus]
    · rw [mask_to_cpus]
      simp only [h, dite_false]
      cases c with
      | zero =>
        rcases Nat.mod_two_eq_zero_or_one m with h2 | h2 <;>
          simp [h2, Nat.testBit_zero, List.mem_append, List.mem_map]
      | succ c =>
        have hiH := ih (m / 2) (Nat.div_lt_self (Nat.pos_of_ne_zero h) Nat.one_lt_two) c
        rw [Nat.testBit_add_one]
        rcases Nat.mod_two_eq_zero_or_one m with h2 | h2 <;>
          simp [h2, List.mem_append, List.mem_map, hiH]

theorem sorted_mask_to_cpus (m : Nat) : (mask_to_cpus m).Sorted (· < ·) := by
  induction m using Nat.strong_induction_on with
  | _ m ih =>
    by_cases h : m = 0
    · subst h; simp [mask_to_cpus]
    · rw [mask_to_cpus]
      simp only [h, dite_false]
      have hs : ((mask_to_cpus (m / 2)).map (· + 1)).Sorted (· < ·) := by
        refine List.Pairwise.map _ (fun a b hab => ?_)
          (ih (m / 2) (Nat.div_lt_self (Nat.pos_of_ne_zero h) Nat.one_lt_two))
        omega
      rcases Nat.mod_two_eq_zero_or_one m with h2 | h2
      · simp [h2, hs]
      · simp only [h2, if_pos rfl, List.singleton_append]
        refine List.sorted_cons.mpr ⟨?_, hs⟩
        intro b hb
        rcases List.mem_map.mp hb with ⟨a, _, rfl⟩
        omega

theorem testBit_cpus_to_mask_foldl (l : List Nat) :
    ∀ acc c, ((l.foldl (fun res cpu => res ||| (1 <<< cpu)) acc).testBit c)
      = (acc.testBit c || decide (c ∈ l)) := by
  induction l with
  | nil => intro acc c; simp
  | cons x xs ih =>
    intro acc c
    rw [List.foldl_cons, ih, Nat.testBit_or, Nat.one_shiftLeft, Nat.testBit_two_pow]
    simp [List.mem_cons, Bool.or_assoc, eq_comm, or_comm]

theorem mem_mask_cpus_roundtrip (l : List Nat) (c : Nat) :
    c ∈ mask_to_cpus (cpus_to_mask l) ↔ c ∈ l := by
  rw [mem_mask_to_cpus, cpus_to_mask, testBit_cpus_to_mask_foldl]
  simp

/- ===================== Hex parsing lemmas ===================== -/

theorem hexDigitsVal_isSome (l : List Char) :
    (hexDigitsVal l).isSome ↔ l ≠ [] ∧ ∀ c ∈ l, isHexDigitChar c = true := by
  cases l with
  | nil => simp [hexDigitsVal]
  | cons a r =>
    constructor
    · intro h
      refine ⟨by simp, fun c hc => ?_⟩
      by_cases hall : (a :: r).all isHexDigitChar
      · exact List.all_eq_true.mp hall c hc
      · simp [hexDigitsVal, hall] at h
    · rintro ⟨-, hall⟩
      simp [hexDigitsVal, List.all_eq_true.mpr hall]

theorem hex_ne_signs {c : Char} (h : isHexDigitChar c = true) : c ≠ '-' ∧ c ≠ '+' := by
  constructor <;> rintro rfl <;> exact absurd h (by decide)

theorem stripHexMarker_all_hex {ds : List Char}
    (h : ∀ c ∈ ds, isHexDigitChar c = true) : stripHexMarker ds = ds := by
  match ds with
  | [] => rfl
  | [a] => rfl
  | a :: b :: r =>
    show (if a = '0' ∧ (b = 'x' ∨ b = 'X') then r else a :: b :: r) = a :: b :: r
    rw [if_neg]
    rintro ⟨rfl, hb | hb⟩ <;>
      exact absurd (h b (by simp [hb])) (by rw [hb]; decide)

theorem strip_decomp (cs2 : List Char)
    (h : (hexDigitsVal (stripHexMarker cs2)).isSome) :
    ∃ mk ds, cs2 = mk ++ ds ∧ (mk = [] ∨ mk = ['0', 'x'] ∨ mk = ['0', 'X']) ∧
      ds ≠ [] ∧ ∀ c ∈ ds, isHexDigitChar c = true := by
  match cs2 with
  | [] => exact absurd h (by decide)
  | [a] =>
    refine ⟨[], [a], rfl, Or.inl rfl, ?_, ?_⟩ <;>
      · have := (hexDigitsVal_isSome _).mp h
        simp_all [stripHexMarker]
  | a :: b :: r =>
    by_cases hc : a = '0' ∧ (b = 'x' ∨ b = 'X')
    · have hstrip : stripHexMarker (a :: b :: r) = r := by
        show (if a = '0' ∧ (b = 'x' ∨ b = 'X') then r else a :: b :: r) = r
        rw [if_pos hc]
      rw [hstrip] at h
      have hr := (hexDigitsVal_isSome _).mp h
      rcases hc with ⟨rfl, rfl | rfl⟩
      · exact ⟨['0', 'x'], r, rfl, Or.inr (Or.inl rfl), hr.1, hr.2⟩
      · exact ⟨['0', 'X'], r, rfl, Or.inr (Or.inr rfl), hr.1, hr.2⟩
    · have hstrip : stripHexMarker (a :: b :: r) = a :: b :: r := by
        show (if a = '0' ∧ (b = 'x' ∨ b = 'X') then r else a :: b :: r) = _
        rw [if_neg hc]
      rw [hstrip] at h
      have hr := (hexDigitsVal_isSome _).mp h
      exact ⟨[], a :: b :: r, rfl, Or.inl rfl, hr.1, hr.2⟩

theorem pyIntHex_isSome_iff (s : String) : (pyIntHex s).isSome ↔ ValidHexInt s := by
  rw [pyIntHex, Option.isSome_map']
  constructor
  · intro h
    match hcs : s.data with
    | [] => rw [hcs] at h; exact absurd h (by decide)
    | c :: r =>
      rw [hcs] at h
      by_cases hm : c = '-'
      · subst hm
        rw [show (splitSign ('-' :: r)).2 = r by simp [splitSign]] at h
        rcases strip_decomp r h with ⟨mk, ds, rfl, hmk, hds, hhex⟩
        exact ⟨['-'], mk, ds, by simp [hcs], Or.inr (Or.inl rfl), hmk, hds, hhex⟩
      · by_cases hp : c = '+'
        · subst hp
          rw [show (splitSign ('+' :: r)).2 = r by simp [splitSign]] at h
          rcases strip_decomp r h with ⟨mk, ds, rfl, hmk, hds, hhex⟩
          exact ⟨['+'], mk, ds, by simp [hcs], Or.inr (Or.inr rfl), hmk, hds, hhex⟩
        · rw [show (splitSign (c :: r)).2 = c :: r by simp [splitSign, hm, hp]] at h
          rcases strip_decomp (c :: r) h with ⟨mk, ds, hdecomp, hmk, hds, hhex⟩
          exact ⟨[], mk, ds, by simp [hcs, hdecomp], Or.inl rfl, hmk, hds, hhex⟩
  · rintro ⟨sgn, mk, ds, hdecomp, hsgn, hmk, hds, hhex⟩
    have hsplit : (splitSign s.data).2 = mk ++ ds := by
      rcases hsgn with rfl | rfl | rfl
      · simp only [List.nil_append] at hdecomp
        rw [hdecomp]
        rcases hmk with rfl | rfl | rfl
        · match ds, hds with
          | d :: ds2, _ =>
            have hd := hex_ne_signs (hhex d (by simp))
            simp [splitSign, hd.1, hd.2]
        · simp [splitSign]
        · simp [splitSign]
      · rw [hdecomp]; simp [splitSign]
      · rw [hdecomp]; simp [splitSign]
    rw [hsplit]
    have hstrip : stripHexMarker (mk ++ ds) = ds := by
      rcases hmk with rfl | rfl | rfl
      · exact stripHexMarker_all_hex hhex
      · rfl
      · rfl
    rw [hstrip]
    exact (hexDigitsVal_isSome ds).mpr ⟨hds, hhex⟩

/- ===================== Population count lemmas ===================== -/

theorem toDigitsCore_count_one (fuel : Nat) :
    ∀ n ds, n < fuel →
      (Nat.toDigitsCore 2 fuel n ds).count '1' = specPopCount n + ds.count '1' := by
  induction fuel with
  | zero => intro n ds h; omega
  | succ fuel ih =>
    intro n ds h
    show (let d := Nat.digitChar (n % 2); let n' := n / 2;
      if n' = 0 then (d :: ds) else Nat.toDigitsCore 2 fuel n' (d :: ds)).count '1'
      = specPopCount n + ds.count '1'
    simp only
    by_cases h0 : n / 2 = 0
    · rw [if_pos h0]
      have hn : n = 0 ∨ n = 1 := by omega
      rcases hn with rfl | rfl <;> simp [specPopCount, List.count_cons, Nat.digitChar] <;>
        omega
    · rw [if_neg h0]
      rw [ih (n / 2) _ (by omega)]
      rw [show specPopCount n = n % 2 + specPopCount (n / 2) from by
        rw [specPopCount, if_neg (by omega : ¬ n = 0)]]
      rcases Nat.mod_two_eq_zero_or_one n with h2 | h2 <;>
        simp [h2, List.count_cons, Nat.digitChar] <;> omega

theorem popcount_eq_specPopCount (n : Nat) : popcount n = specPopCount n := by
  have := toDigitsCore_count_one (n + 1) n [] (by omega)
  simpa [popcount, Nat.toDigits] using this

/- ===================== Claims C2, C7, C8 ===================== -/

/-- Claim C2: for every collection S of non-negative integers,
`mask_to_cpus (cpus_to_mask S)` is strictly ascending, duplicate-free and
holds exactly the elements of S (least-significant bit first); the empty
collection maps to mask 0, and mask 0 maps back to the empty list. -/
theorem C2_mask_cpu_roundtrip :
    (∀ l : List Nat,
      (mask_to_cpus (cpus_to_mask l)).Sorted (· < ·) ∧
      (mask_to_cpus (cpus_to_mask l)).Nodup ∧
      ∀ c : Nat, c ∈ mask_to_cpus (cpus_to_mask l) ↔ c ∈ l) ∧
    cpus_to_mask [] = 0 ∧ mask_to_cpus 0 = [] := by
  refine ⟨fun l => ⟨sorted_mask_to_cpus _, ?_, fun c => mem_mask_cpus_roundtrip l c⟩,
    rfl, by simp [mask_to_cpus]⟩
  exact (sorted_mask_to_cpus _).nodup

/-- Claim C7: `sanitize_mask` strips all comma separators and parses the
remainder in base 16 (`sanitize_mask "0000000f" = 15`); it fails exactly when
the comma-stripped text is not a valid base-16 integer literal
(`sanitize_mask "bad-mask"` fails). -/
theorem C7_sanitize_mask_contract :
    sanitize_mask "0000000f" = some 15 ∧
    sanitize_mask "bad-mask" = none ∧
    (∀ s : String, sanitize_mask s = pyIntHex (removeCommas s)) ∧
    (∀ s : String, (sanitize_mask s).isSome ↔ ValidHexInt (removeCommas s)) := by
  refine ⟨by decide, by decide, fun s => rfl, fun s => pyIntHex_isSome_iff _⟩

/-- Claim C8: `num_cpus_in_mask` equals the population count of the value
`sanitize_mask` parses; it is invariant under inserting or removing commas in
the textual mask; `num_cpus_in_mask "000000f0" = 4` and
`num_cpus_in_mask "0,0,0,0,f,0" = 4`. -/
theorem C8_num_cpus_popcount :
    (∀ s : String,
      num_cpus_in_mask s = (sanitize_mask s).map (fun v => specPopCount v.natAbs)) ∧
    (∀ s₁ s₂ : String, removeCommas s₁ = removeCommas s₂ →
      num_cpus_in_mask s₁ = num_cpus_in_mask s₂) ∧
    num_cpus_in_mask "000000f0" = some 4 ∧
    num_cpus_in_mask "0,0,0,0,f,0" = some 4 := by
  refine ⟨fun s => ?_, fun s₁ s₂ h => by simp only [num_cpus_in_mask, h], by decide, by decide⟩
  cases h : pyIntHex (removeCommas s) <;>
    simp [num_cpus_in_mask, sanitize_mask, h, popcount_eq_specPopCount]

/- ===================== Label pivot ===================== -/

/-- A pivoted wide table: one (label, column) pair per distinct group value;
a column is aligned with the global row index and a cell is `none` where the
pandas result holds NaN. -/
abbrev WideTable := List (String × List (Option ℚ))

/-- The index-aligned series `dfr[dfr[new_col_name] == col][data_col_name]`
as pandas re-aligns it onto the full row index when the per-label series are
assembled into one DataFrame: row i holds the value when row i belongs to the
group, and is missing otherwise. -/
def rawColumn (rows : List (String × ℚ)) (g : String) : List (Option ℚ) :=
  rows.map (fun r => if r.1 = g then some r.2 else none)

/-- Embedding of `fillna(method="pad")` on one column: each missing cell takes
the running last seen value. -/
def ffill (last : Option ℚ) : List (Option ℚ) → List (Option ℚ)
  | [] => []
  | none :: xs => last :: ffill last xs
  | some v :: xs => some v :: ffill (some v) xs

/-- Embedding of `mapping_label[col]` as a lookup that can fail. -/
def lookupLabel (mapping : List (String × String)) (g : String) : Option String :=
  (mapping.find? (fun p => p.1 == g)).map Prod.snd

/-- The data carried by the `KeyError` the pivot raises for a group value
absent from the label map: the offending key and the map's known keys (both
appear verbatim in the formatted message of the source). -/
structure PivotKeyError where
  key : String
  availableKeys : List String
deriving DecidableEq

/-- The loop of `pivot_with_labels` over the distinct group values: look each
one up in the label map, fail on the first one missing, otherwise emit its
forward-filled column under its label. -/
def pivotGo (rows : List (String × ℚ)) (mapping : List (String × String)) :
    List String → Except PivotKeyError WideTable
  | [] => .ok []
  | g :: gs =>
    match lookupLabel mapping g with
    | none => .error ⟨g, mapping.map Prod.fst⟩
    | some lbl =>
      match pivotGo rows mapping gs with
      | .error e => .error e
      | .ok rest => .ok ((lbl, ffill none (rawColumn rows g)) :: rest)

/-- Embedding of `pivot_with_labels` (cpu_power.py): a row is the pair of its
group-column and value-column cells; the distinct group values stand for the
Python `set` of the group column. -/
def pivot_with_labels (rows : List (String × ℚ)) (mapping : List (String × String)) :
    Except PivotKeyError WideTable :=
  pivotGo rows mapping (rows.map Prod.fst).dedup

/-- Column of a wide table under a given label. -/
def lookupCol (wt : WideTable) (lbl : String) : Option (List (Option ℚ)) :=
  (wt.find? (fun p => p.1 == lbl)).map Prod.snd

/-- The running-last-value step of the forward fill. -/
def keepLast (acc : Option ℚ) (o : Option ℚ) : Option ℚ :=
  match o with
  | some v => some v
  | none => acc

/-- The last seen value after reading a column through cell i. -/
def padCell (a : Option ℚ) (xs : List (Option ℚ)) (i : Nat) : Option ℚ :=
  (xs.take (i + 1)).foldl keepLast a

/-- Spec-side forward fill, cell by cell: a cell with a raw value keeps it; a
missing cell takes the most recent preceding non-missing raw value of its
column, and stays missing when no preceding value exists. -/
def specFFillCell (raw : List (Option ℚ)) (i : Nat) : Option ℚ :=
  match raw.getD i none with
  | some v => some v
  | none => ((raw.take i).filterMap id).getLast?

/-- The worked example of the source docstring: group column and value column
of the four input rows. -/
def exRows : List (String × ℚ) :=
  [("000000f0", 1), ("0000000f", 3), ("000000f0", 2), ("0000000f", 6)]

/-- The label map of the worked example. -/
def exMap : List (String × String) :=
  [("000000f0", "A15"), ("0000000f", "A7")]

/- ===================== Forward fill lemmas ===================== -/

theorem ffill_length (a : Option ℚ) (xs : List (Option ℚ)) :
    (ffill a xs).length = xs.length := by
  induction xs generalizing a with
  | nil => rfl
  | cons x t ih =>
    cases x <;> simp [ffill, ih]

theorem ffill_get? (xs : List (Option ℚ)) :
    ∀ (a : Option ℚ) (i : Nat), i < xs.length →
      (ffill a xs).get? i = some (padCell a xs i) := by
  induction xs with
  | nil => intro a i h; simp at h
  | cons x t ih =>
    intro a i h
    cases i with
    | zero =>
      cases x <;> simp [ffill, padCell, keepLast]
    | succ i =>
      have hlt : i < t.length := by simpa using h
      cases x with
      | none =>
        show (ffill a (none :: t)).get? (i+1) = some (padCell a (none :: t) (i+1))
        rw [show ffill a (none :: t) = a :: ffill a t from rfl]
        rw [List.get?_cons_succ, ih a i hlt]
        congr 1
      | some v =>
        show (ffill a (some v :: t)).get? (i+1) = some (padCell a (some v :: t) (i+1))
        rw [show ffill a (some v :: t) = some v :: ffill (some v) t from rfl]
        rw [List.get?_cons_succ, ih (some v) i hlt]
        congr 1

theorem foldl_keepLast (xs : List (Option ℚ)) :
    ∀ a, xs.foldl keepLast a =
      match (xs.filterMap id).getLast? with
      | some v => some v
      | none => a := by
  induction xs with
  | nil => intro a; rfl
  | cons x t ih =>
    intro a
    cases x with
    | none =>
      rw [List.foldl_cons, ih]
      rfl
    | some v =>
      rw [List.foldl_cons, ih]
      have hfm : (List.filterMap id (some v :: t)) = v :: t.filterMap id := by
        simp [List.filterMap_cons]
      rw [hfm]
      cases ht : (t.filterMap id).getLast? with
      | none =>
        have hnil : t.filterMap id = [] := by
          cases h2 : t.filterMap id with
          | nil => rfl
          | cons y ys => rw [h2] at ht; simp at ht
        simp [hnil, keepLast]
      | some w =>
        have hlast : (v :: t.filterMap id).getLast? = some w := by
          rw [List.getLast?_cons]
          simp [ht]
        simp [hlast, keepLast]

theorem padCell_eq_specFFillCell (raw : List (Option ℚ)) (i : Nat) (h : i < raw.length) :
    padCell none raw i = specFFillCell raw i := by
  rw [padCell, foldl_keepLast]
  rw [specFFillCell]
  have hsome : raw[i]? = some (raw.getD i none) := by
    rw [List.getD_eq_getElem?_getD]
    cases hg : raw[i]? with
    | none => rw [List.getElem?_eq_none_iff] at hg; omega
    | some o => simp
  rcases hc : raw.getD i none with _ | v <;> rw [hc] at hsome
  · rw [List.take_succ, hsome]
    simp only [Option.toList_some, List.filterMap_append]
    simp [List.filterMap_cons]
    cases h2 : List.findSome? id (List.take i raw).reverse <;> rfl
  · rw [List.take_succ, hsome]
    simp only [Option.toList_some, List.filterMap_append]
    rw [List.getLast?_append]
    simp [List.filterMap_cons]

/- ===================== Pivot structure lemmas ===================== -/

theorem pivotGo_ok_mem (rows : List (String × ℚ)) (mapping : List (String × String)) :
    ∀ (gs : List String) (wt : WideTable), pivotGo rows mapping gs = .ok wt →
      ∀ p ∈ wt, ∃ g ∈ gs, lookupLabel mapping g = some p.1 ∧
        p.2 = ffill none (rawColumn rows g) := by
  intro gs
  induction gs with
  | nil =>
    intro wt h p hp
    simp only [pivotGo] at h
    cases h
    simp at hp
  | cons g gs ih =>
    intro wt h p hp
    rw [pivotGo] at h
    cases hl : lookupLabel mapping g with
    | none => rw [hl] at h; cases h
    | some lbl =>
      rw [hl] at h
      cases hrec : pivotGo rows mapping gs with
      | error e => rw [hrec] at h; cases h
      | ok rest =>
        rw [hrec] at h
        cases h
        rcases List.mem_cons.mp hp with rfl | hmem
        · exact ⟨g, List.mem_cons_self g gs, hl, rfl⟩
        · rcases ih rest hrec p hmem with ⟨g2, hg2, hl2, he2⟩
          exact ⟨g2, List.mem_cons_of_mem g hg2, hl2, he2⟩

theorem pivotGo_missing_error (rows : List (String × ℚ)) (mapping : List (String × String)) :
    ∀ gs : List String, (∃ g ∈ gs, lookupLabel mapping g = none) →
      ∃ k ∈ gs, lookupLabel mapping k = none ∧
        pivotGo rows mapping gs = .error ⟨k, mapping.map Prod.fst⟩ := by
  intro gs
  induction gs with
  | nil => rintro ⟨g, hg, -⟩; simp at hg
  | cons g gs ih =>
    rintro ⟨g0, hg0, hnone⟩
    cases hl : lookupLabel mapping g with
    | none =>
      refine ⟨g, List.mem_cons_self g gs, hl, ?_⟩
      rw [pivotGo, hl]
    | some lbl =>
      have hg0m : g0 ∈ gs := by
        rcases List.mem_cons.mp hg0 with rfl | h2
        · rw [hl] at hnone; cases hnone
        · exact h2
      rcases ih ⟨g0, hg0m, hnone⟩ with ⟨k, hk, hkn, herr⟩
      refine ⟨k, List.mem_cons_of_mem g hk, hkn, ?_⟩
      rw [pivotGo, hl, herr]

/- ===================== Claims C1 and C3 ===================== -/

/-- Claim C1: on the worked example the pivot returns the wide table whose
"A15" column is [1,1,2,2] and whose "A7" column is [NaN,3,3,6]; and in
general every column of a successful pivot belongs to some group value of the
input, is row-aligned with the input, and each of its cells is the raw value
where the row contributes, otherwise the most recent preceding non-missing
value of the column (forward fill), leading cells staying missing. -/
theorem C1_pivot_forward_fill :
    (pivot_with_labels exRows exMap =
      .ok [("A15", [some 1, some 1, some 2, some 2]),
           ("A7", [none, some 3, some 3, some 6])]) ∧
    (∀ (rows : List (String × ℚ)) (mapping : List (String × String)) (wt : WideTable),
      pivot_with_labels rows mapping = .ok wt →
      ∀ p ∈ wt, ∃ g, g ∈ rows.map Prod.fst ∧ lookupLabel mapping g = some p.1 ∧
        p.2.length = rows.length ∧
        ∀ i, i < rows.length →
          p.2.get? i = some (specFFillCell (rawColumn rows g) i)) := by
  refine ⟨rfl, fun rows mapping wt h p hp => ?_⟩
  rcases pivotGo_ok_mem rows mapping _ wt h p hp with ⟨g, hg, hlbl, hcol⟩
  have hraw : (rawColumn rows g).length = rows.length := by
    simp [rawColumn]
  refine ⟨g, List.mem_dedup.mp hg, hlbl, ?_, fun i hi => ?_⟩
  · rw [hcol, ffill_length, hraw]
  · rw [hcol, ffill_get? _ _ _ (by rw [hraw]; exact hi),
      padCell_eq_specFFillCell _ _ (by rw [hraw]; exact hi)]

/-- Claim C3: whenever some distinct value of the group column has no entry
in the label map, the pivot fails with an error carrying one such offending
key verbatim together with the label map's known keys, and no wide table is
produced. -/
theorem C3_pivot_unknown_group (rows : List (String × ℚ))
    (mapping : List (String × String))
    (h : ∃ g ∈ rows.map Prod.fst, lookupLabel mapping g = none) :
    ∃ k, k ∈ rows.map Prod.fst ∧ lookupLabel mapping k = none ∧
      pivot_with_labels rows mapping = .error ⟨k, mapping.map Prod.fst⟩ := by
  rcases h with ⟨g, hg, hnone⟩
  rcases pivotGo_missing_error rows mapping (rows.map Prod.fst).dedup
      ⟨g, List.mem_dedup.mpr hg, hnone⟩ with ⟨k, hk, hkn, herr⟩
  exact ⟨k, List.mem_dedup.mp hk, hkn, herr⟩

/-- Witness for C3 at a concrete input: pivoting the example rows with an
empty label map fails with the error carrying the offending key and the empty
known-key list. -/
theorem C3_pivot_unknown_group_witness :
    ∃ k, k ∈ exRows.map Prod.fst ∧ lookupLabel [] k = none ∧
      pivot_with_labels exRows [] = .error ⟨k, ([] : List (String × String)).map Prod.fst⟩ :=
  C3_pivot_unknown_group exRows [] ⟨"000000f0", by decide, rfl⟩

/- ===================== Frequency tables and unit conversion ===================== -/

/-- The event table of the cpu power classes: the `cpus` group column, the
`freq` column and the remaining named numeric columns (`load*`,
`dynamic_power`, `cdev_state`, ...), all aligned on the same row index. -/
structure CpuPowerFrame where
  cpus : List String
  freq : List ℚ
  dataCols : List (String × List ℚ)

/-- Divide every cell of a wide table by a constant (pandas `DataFrame / d`;
NaN stays NaN). -/
def wideDivide (d : ℚ) (wt : WideTable) : WideTable :=
  wt.map (fun p => (p.1, p.2.map (fun o => o.map (fun v => v / d))))

/-- Embedding of `CpuInPower.get_all_freqs`: pivot the `freq` column along
`cpus` with the label map, then divide by 1000. -/
def CpuInPower_get_all_freqs (t : CpuPowerFrame) (mapping : List (String × String)) :
    Except PivotKeyError WideTable :=
  (pivot_with_labels (t.cpus.zip t.freq) mapping).map (wideDivide 1000)

/-- Embedding of `CpuOutPower.get_all_freqs`: same pipeline as the in-power
class, with the same divisor 1000. -/
def CpuOutPower_get_all_freqs (t : CpuPowerFrame) (mapping : List (String × String)) :
    Except PivotKeyError WideTable :=
  (pivot_with_labels (t.cpus.zip t.freq) mapping).map (wideDivide 1000)

/-- Embedding of `DevfreqInPower.get_all_freqs`: the `freq` column of the
devfreq event table divided by 1000000. -/
def DevfreqInPower_get_all_freqs (freq : List ℚ) : List ℚ :=
  freq.map (fun v => v / 1000000)

/-- Embedding of `DevfreqOutPower.get_all_freqs`: the `freq` column of the
devfreq event table divided by 1000000. -/
def DevfreqOutPower_get_all_freqs (freq : List ℚ) : List ℚ :=
  freq.map (fun v => v / 1000000)

/-- A one-row cpu power table whose frequency is 1000000 native units. -/
def exFreqFrame : CpuPowerFrame :=
  ⟨["00000001"], [1000000], []⟩

/-- Claim C5: the cpu-class `get_all_freqs` divide the pivoted frequency
column by exactly 1000 and the devfreq-class `get_all_freqs` divide the
frequency column by exactly 1000000; an input frequency of 1000000 native
units becomes 1000 through the first path and 1 through the second. -/
theorem C5_freq_unit_divisors :
    (∀ (t : CpuPowerFrame) (mapping : List (String × String)) (wt : WideTable),
      pivot_with_labels (t.cpus.zip t.freq) mapping = .ok wt →
        CpuInPower_get_all_freqs t mapping = .ok (wideDivide 1000 wt) ∧
        CpuOutPower_get_all_freqs t mapping = .ok (wideDivide 1000 wt)) ∧
    (∀ (freq : List ℚ) (i : Nat),
      (DevfreqInPower_get_all_freqs freq).get? i
        = (freq.get? i).map (fun v => v / 1000000) ∧
      (DevfreqOutPower_get_all_freqs freq).get? i
        = (freq.get? i).map (fun v => v / 1000000)) ∧
    CpuInPower_get_all_freqs exFreqFrame [("00000001", "A")] = .ok [("A", [some 1000])] ∧
    CpuOutPower_get_all_freqs exFreqFrame [("00000001", "A")] = .ok [("A", [some 1000])] ∧
    DevfreqInPower_get_all_freqs [1000000] = [1] ∧
    DevfreqOutPower_get_all_freqs [1000000] = [1] := by
  have hpiv : pivot_with_labels (exFreqFrame.cpus.zip exFreqFrame.freq)
      [("00000001", "A")] = .ok [("A", [some 1000000])] := rfl
  refine ⟨fun t mapping wt h => ?_, fun freq i => ?_, ?_, ?_, ?_, ?_⟩
  · exact ⟨by rw [CpuInPower_get_all_freqs, h]; rfl,
      by rw [CpuOutPower_get_all_freqs, h]; rfl⟩
  · constructor <;>
      simp [DevfreqInPower_get_all_freqs, DevfreqOutPower_get_all_freqs, List.get?_map]
  · rw [CpuInPower_get_all_freqs, hpiv]
    norm_num [Except.map, wideDivide]
  · rw [CpuOutPower_get_all_freqs, hpiv]
    norm_num [Except.map, wideDivide]
  · norm_num [DevfreqInPower_get_all_freqs]
  · norm_num [DevfreqOutPower_get_all_freqs]

/- ===================== Load aggregation ===================== -/

/-- Embedding of the Python predicate `s.startswith("load")` used to select
the load columns. -/
def startsWithLoad (s : String) : Bool :=
  match s.data with
  | 'l' :: 'o' :: 'a' :: 'd' :: _ => true
  | _ => false

/-- Embedding of `CpuInPower._get_load_series`: the element-wise sum of every
column whose name begins with "load", built as the source builds it — start
from the first such column and add the others in turn (`none` when no load
column exists: the source's `load_cols[0]` raises there). -/
def CpuInPower_get_load_series (t : CpuPowerFrame) : Option (List ℚ) :=
  match t.dataCols.filter (fun p => startsWithLoad p.1) with
  | [] => none
  | c :: cs => some (cs.foldl (fun acc col => acc.zipWith (· + ·) col.2) c.2)

/-- Spec-side combined load: cell i of the row-wise sum of the given
columns. -/
def rowwiseSumCell (cols : List (List ℚ)) (i : Nat) : ℚ :=
  (cols.map (fun c => c.getD i 0)).sum

/-- The frequency cells of the rows whose `cpus` cell equals the given key
(the series `dfr[dfr["cpus"] == cpumask]["freq"]`). -/
def selectFreqs (t : CpuPowerFrame) (k : String) : List ℚ :=
  (t.cpus.zip t.freq).filterMap (fun p => if p.1 = k then some p.2 else none)

/-- Embedding of the Python builtin `max` over a series of values: `none` on
an empty series (the builtin raises `ValueError` there). -/
def listMax : List ℚ → Option ℚ
  | [] => none
  | x :: xs =>
    match listMax xs with
    | none => some x
    | some m => some (max x m)

/-- One iteration of the normalisation loop of `get_normalized_load_data`:
for the label-map key `k`, compute the cpu count of the mask and the maximum
frequency over the rows of that group, then divide the load cells of those
rows by `max_freq * num_cpus`; `none` when the mask does not parse or the
group selects no row. -/
def normalizeStep (t : CpuPowerFrame) (load : List ℚ) (k : String) : Option (List ℚ) :=
  match num_cpus_in_mask k with
  | none => none
  | some nc =>
    match listMax (selectFreqs t k) with
    | none => none
    | some mf =>
      some ((t.cpus.zip load).map
        (fun p => if p.1 = k then p.2 / (mf * (nc : ℚ)) else p.2))

/-- The load series of `get_normalized_load_data` before the final pivot:
combined load, multiplied cell-wise by the frequency column, then normalised
group by group over the label-map keys. -/
def normalizedSeries (t : CpuPowerFrame) (mapping : List (String × String)) :
    Option (List ℚ) :=
  match CpuInPower_get_load_series t with
  | none => none
  | some ls =>
    List.foldlM (normalizeStep t) (ls.zipWith (· * ·) t.freq) (mapping.map Prod.fst)

/-- Embedding of `CpuInPower.get_normalized_load_data`: the normalised load
series pivoted along `cpus` with the label map. -/
def CpuInPower_get_normalized_load_data (t : CpuPowerFrame)
    (mapping : List (String × String)) : Option (Except PivotKeyError WideTable) :=
  (normalizedSeries t mapping).map
    (fun ls => pivot_with_labels (t.cpus.zip ls) mapping)

/-- The single-group example of the spec: two rows of one cluster whose mask
covers cpus 0 and 1, frequencies 10 and 20, one load column [1, 1]. -/
def exLoadFrame : CpuPowerFrame :=
  ⟨["00000003", "00000003"], [10, 20], [("load", [1, 1])]⟩

/-- The label map of the single-group example. -/
def exLoadMap : List (String × String) :=
  [("00000003", "CL")]

/-- A frame with two load columns and one other column, for the combined-load
witness. -/
def exCombFrame : CpuPowerFrame :=
  ⟨["a", "a"], [1, 1], [("load_cpu0", [1, 2]), ("load_cpu1", [3, 4]), ("other", [9, 9])]⟩

/-- A frame paired with a label map whose key matches no row. -/
def exMissFrame : CpuPowerFrame :=
  ⟨["0000000f"], [5], [("load", [1])]⟩

/- ===================== Element-wise list lemmas ===================== -/

theorem zipWith_get?_op (f : ℚ → ℚ → ℚ) :
    ∀ (a b : List ℚ) (i : Nat) (x y : ℚ), a.get? i = some x → b.get? i = some y →
      (a.zipWith f b).get? i = some (f x y) := by
  intro a
  induction a with
  | nil => intro b i x y hx; simp at hx
  | cons a0 at' ih =>
    intro b i x y hx hy
    cases b with
    | nil => simp at hy
    | cons b0 bt =>
      cases i with
      | zero =>
        simp at hx hy
        simp [List.zipWith, hx, hy]
      | succ i =>
        simp only [List.get?_cons_succ] at hx hy
        simpa [List.zipWith] using ih bt i x y hx hy

theorem zip_get? {α β : Type} (a : List α) :
    ∀ (b : List β) (i : Nat) (x : α) (y : β), a.get? i = some x → b.get? i = some y →
      (a.zip b).get? i = some (x, y) := by
  induction a with
  | nil => intro b i x y hx; simp at hx
  | cons a0 at' ih =>
    intro b i x y hx hy
    cases b with
    | nil => simp at hy
    | cons b0 bt =>
      cases i with
      | zero => simp at hx hy; simp [hx, hy]
      | succ i =>
        simp only [List.get?_cons_succ] at hx hy
        simpa using ih bt i x y hx hy

theorem foldl_zipAdd (cs : List (List ℚ)) :
    ∀ (acc : List ℚ), (∀ c ∈ cs, c.length = acc.length) →
      (cs.foldl (fun a c => a.zipWith (· + ·) c) acc).length = acc.length ∧
      ∀ i, i < acc.length →
        (cs.foldl (fun a c => a.zipWith (· + ·) c) acc).get? i
          = some (acc.getD i 0 + (cs.map (fun c => c.getD i 0)).sum) := by
  induction cs with
  | nil =>
    intro acc h
    refine ⟨rfl, fun i hi => ?_⟩
    simp [List.getD_eq_getElem?_getD, List.getElem?_eq_getElem hi]
  | cons c0 ct ih =>
    intro acc h
    have hlen : (acc.zipWith (· + ·) c0).length = acc.length := by
      rw [List.length_zipWith, h c0 (by simp)]
      omega
    have hnext : ∀ c ∈ ct, c.length = (acc.zipWith (· + ·) c0).length := by
      intro c hc
      rw [hlen]
      exact h c (by simp [hc])
    rcases ih (acc.zipWith (· + ·) c0) hnext with ⟨ihlen, ihget⟩
    rw [List.foldl_cons]
    refine ⟨by rw [ihlen, hlen], fun i hi => ?_⟩
    rw [ihget i (by rw [hlen]; exact hi)]
    have hacc : acc.get? i = some (acc.getD i 0) := by
      rw [List.getD_eq_getElem?_getD, ← List.get?_eq_getElem?]
      cases hg : acc.get? i with
      | none => rw [List.get?_eq_none] at hg; omega
      | some v => simp
    have hc0 : c0.get? i = some (c0.getD i 0) := by
      have hi0 : i < c0.length := by rw [h c0 (by simp)]; exact hi
      rw [List.getD_eq_getElem?_getD, ← List.get?_eq_getElem?]
      cases hg : c0.get? i with
      | none => rw [List.get?_eq_none] at hg; omega
      | some v => simp
    have hz := zipWith_get?_op (· + ·) acc c0 i _ _ hacc hc0
    have hzD : (acc.zipWith (· + ·) c0).getD i 0 = acc.getD i 0 + c0.getD i 0 := by
      rw [List.getD_eq_getElem?_getD, ← List.get?_eq_getElem?, hz]
      rfl
    rw [hzD]
    simp [List.map_cons, List.sum_cons]
    ring

/- ===================== Normalisation step lemmas ===================== -/

theorem normalizeStep_some (t : CpuPowerFrame) (load : List ℚ) (k : String)
    (out : List ℚ) (h : normalizeStep t load k = some out) :
    ∃ nc mf, num_cpus_in_mask k = some nc ∧ listMax (selectFreqs t k) = some mf ∧
      out = (t.cpus.zip load).map
        (fun p => if p.1 = k then p.2 / (mf * (nc : ℚ)) else p.2) := by
  rw [normalizeStep] at h
  cases hnc : num_cpus_in_mask k with
  | none => rw [hnc] at h; cases h
  | some nc =>
    rw [hnc] at h
    cases hmf : listMax (selectFreqs t k) with
    | none => rw [hmf] at h; cases h
    | some mf =>
      rw [hmf] at h
      cases h
      exact ⟨nc, mf, rfl, rfl, rfl⟩

theorem normalizeStep_length (t : CpuPowerFrame) (load : List ℚ) (k : String)
    (out : List ℚ) (h : normalizeStep t load k = some out)
    (hl : load.length = t.cpus.length) : out.length = t.cpus.length := by
  rcases normalizeStep_some t load k out h with ⟨nc, mf, -, -, rfl⟩
  rw [List.length_map, List.length_zip, hl]
  omega

theorem normalizeStep_get (t : CpuPowerFrame) (load : List ℚ) (k : String)
    (out : List ℚ) (h : normalizeStep t load k = some out)
    (hl : load.length = t.cpus.length)
    (i : Nat) (c : String) (hc : t.cpus.get? i = some c) :
    ∃ nc mf, num_cpus_in_mask k = some nc ∧ listMax (selectFreqs t k) = some mf ∧
      out.get? i = some (if c = k then load.getD i 0 / (mf * (nc : ℚ))
        else load.getD i 0) := by
  rcases normalizeStep_some t load k out h with ⟨nc, mf, hnc, hmf, rfl⟩
  have hi : i < t.cpus.length := by
    by_contra hcon
    rw [List.get?_eq_none.mpr (by omega)] at hc
    cases hc
  have hld : load.get? i = some (load.getD i 0) := by
    rw [List.getD_eq_getElem?_getD, ← List.get?_eq_getElem?]
    cases hg : load.get? i with
    | none => rw [List.get?_eq_none] at hg; omega
    | some v => simp
  have hz := zip_get? t.cpus load i c (load.getD i 0) hc hld
  refine ⟨nc, mf, hnc, hmf, ?_⟩
  rw [List.get?_map, hz]
  rfl

theorem normalizeStep_untouched (t : CpuPowerFrame) (load : List ℚ) (k : String)
    (out : List ℚ) (h : normalizeStep t load k = some out)
    (i : Nat) (c : String) (hc : t.cpus.get? i = some c) (hne : c ≠ k)
    (hl : load.length = t.cpus.length) :
    out.get? i = load.get? i := by
  have hi : i < t.cpus.length := by
    by_contra hcon
    rw [List.get?_eq_none.mpr (by omega)] at hc
    cases hc
  have hld : load.get? i = some (load.getD i 0) := by
    rw [List.getD_eq_getElem?_getD, ← List.get?_eq_getElem?]
    cases hg : load.get? i with
    | none => rw [List.get?_eq_none] at hg; omega
    | some v => simp
  rcases normalizeStep_get t load k out h hl i c hc with ⟨nc, mf, -, -, hout⟩
  rw [hout, if_neg hne, hld]

theorem foldlM_untouched (t : CpuPowerFrame) :
    ∀ (ks : List String) (load out : List ℚ),
      List.foldlM (normalizeStep t) load ks = some out →
      load.length = t.cpus.length →
      ∀ (i : Nat) (c : String), t.cpus.get? i = some c → c ∉ ks →
        out.get? i = load.get? i := by
  intro ks
  induction ks with
  | nil =>
    intro load out h hl i c hc hn
    simp only [List.foldlM_nil] at h
    cases h
    rfl
  | cons k kt ih =>
    intro load out h hl i c hc hn
    rw [List.foldlM_cons] at h
    cases hstep : normalizeStep t load k with
    | none => rw [hstep] at h; cases h
    | some load1 =>
      rw [hstep] at h
      have hl1 : load1.length = t.cpus.length := normalizeStep_length t load k load1 hstep hl
      have hne : c ≠ k := fun he => hn (he ▸ List.mem_cons_self k kt)
      rw [ih load1 out h hl1 i c hc (fun hm => hn (List.mem_cons_of_mem k hm))]
      exact normalizeStep_untouched t load k load1 hstep i c hc hne hl

theorem foldlM_touched (t : CpuPowerFrame) :
    ∀ (ks : List String) (load out : List ℚ),
      ks.Nodup →
      List.foldlM (normalizeStep t) load ks = some out →
      load.length = t.cpus.length →
      ∀ (i : Nat) (c : String), t.cpus.get? i = some c → c ∈ ks →
        ∃ nc mf, num_cpus_in_mask c = some nc ∧
          listMax (selectFreqs t c) = some mf ∧
          out.get? i = some (load.getD i 0 / (mf * (nc : ℚ))) := by
  intro ks
  induction ks with
  | nil => intro load out _ _ _ i c _ hm; simp at hm
  | cons k kt ih =>
    intro load out hnd h hl i c hc hm
    rw [List.foldlM_cons] at h
    cases hstep : normalizeStep t load k with
    | none => rw [hstep] at h; cases h
    | some load1 =>
      rw [hstep] at h
      have hl1 : load1.length = t.cpus.length := normalizeStep_length t load k load1 hstep hl
      rcases List.mem_cons.mp hm with rfl | hmt
      · rcases normalizeStep_get t load c load1 hstep hl i c hc with ⟨nc, mf, hnc, hmf, hout⟩
        rw [if_pos rfl] at hout
        refine ⟨nc, mf, hnc, hmf, ?_⟩
        have hnotin : c ∉ kt := (List.nodup_cons.mp hnd).1
        rw [foldlM_untouched t kt load1 out h hl1 i c hc hnotin, hout]
      · have hne : c ≠ k := by
          rintro rfl
          exact (List.nodup_cons.mp hnd).1 hmt
        have huntouched : load1.get? i = load.get? i :=
          normalizeStep_untouched t load k load1 hstep i c hc hne hl
        rcases ih load1 out (List.nodup_cons.mp hnd).2 h hl1 i c hc hmt with
          ⟨nc, mf, hnc, hmf, hout⟩
        refine ⟨nc, mf, hnc, hmf, ?_⟩
        rw [hout]
        have hgd : load1.getD i 0 = load.getD i 0 := by
          rw [List.getD_eq_getElem?_getD, List.getD_eq_getElem?_getD,
            ← List.get?_eq_getElem?, ← List.get?_eq_getElem?, huntouched]
        rw [hgd]

theorem foldlM_fails (t : CpuPowerFrame) (k : String)
    (hfail : ∀ load : List ℚ, normalizeStep t load k = none) :
    ∀ (ks : List String) (load : List ℚ), k ∈ ks →
      List.foldlM (normalizeStep t) load ks = none := by
  intro ks
  induction ks with
  | nil => intro load hm; simp at hm
  | cons k0 kt ih =>
    intro load hm
    rw [List.foldlM_cons]
    rcases List.mem_cons.mp hm with rfl | hmt
    · rw [hfail load]
      rfl
    · cases hstep : normalizeStep t load k0 with
      | none => rfl
      | some load1 =>
        show List.foldlM (normalizeStep t) load1 kt = none
        exact ih load1 hmt

theorem get_load_series_length (t : CpuPowerFrame) (base : List ℚ) (n : Nat)
    (h : CpuInPower_get_load_series t = some base)
    (hD : ∀ c ∈ t.dataCols, c.2.length = n) : base.length = n := by
  rw [CpuInPower_get_load_series] at h
  cases hf : t.dataCols.filter (fun p => startsWithLoad p.1) with
  | nil => rw [hf] at h; cases h
  | cons c cs =>
    rw [hf] at h
    cases h
    have hmemf : ∀ x ∈ c :: cs, x ∈ t.dataCols := by
      intro x hx
      exact List.mem_of_mem_filter (hf ▸ hx)
    have hall : ∀ c2 ∈ cs.map Prod.snd, c2.length = c.2.length := by
      intro c2 hc2
      rcases List.mem_map.mp hc2 with ⟨col, hcol, rfl⟩
      rw [hD col (hmemf col (by simp [hcol])), hD c (hmemf c (by simp))]
    have hconv : cs.foldl (fun acc col => acc.zipWith (· + ·) col.2) c.2
        = (cs.map Prod.snd).foldl (fun a c2 => a.zipWith (· + ·) c2) c.2 :=
      (List.foldl_map _ _ _ _).symm
    rw [hconv, (foldl_zipAdd (cs.map Prod.snd) c.2 hall).1,
      hD c (hmemf c (by simp))]

/- ===================== Claims C6, C4, C10 ===================== -/

/-- Claim C6: the combined load series sums, row by row, every column whose
name begins with "load": when those columns are nonempty and row-aligned,
the series exists, has the common length, and each of its cells is the
row-wise sum of the load columns at that row. -/
theorem C6_combined_load (t : CpuPowerFrame) (n : Nat)
    (hlen : ∀ c ∈ t.dataCols.filter (fun p => startsWithLoad p.1), c.2.length = n)
    (hne : t.dataCols.filter (fun p => startsWithLoad p.1) ≠ []) :
    ∃ s, CpuInPower_get_load_series t = some s ∧ s.length = n ∧
      ∀ i, i < n → s.get? i = some
        (rowwiseSumCell
          ((t.dataCols.filter (fun p => startsWithLoad p.1)).map Prod.snd) i) := by
  cases hf : t.dataCols.filter (fun p => startsWithLoad p.1) with
  | nil => exact absurd hf hne
  | cons c cs =>
    rw [hf] at hlen
    have hall : ∀ c2 ∈ cs.map Prod.snd, c2.length = c.2.length := by
      intro c2 hc2
      rcases List.mem_map.mp hc2 with ⟨col, hcol, rfl⟩
      rw [hlen col (by simp [hcol]), hlen c (by simp)]
    have hconv : cs.foldl (fun acc col => acc.zipWith (· + ·) col.2) c.2
        = (cs.map Prod.snd).foldl (fun a c2 => a.zipWith (· + ·) c2) c.2 :=
      (List.foldl_map _ _ _ _).symm
    rcases foldl_zipAdd (cs.map Prod.snd) c.2 hall with ⟨hL, hG⟩
    have hcn : c.2.length = n := hlen c (by simp)
    refine ⟨cs.foldl (fun acc col => acc.zipWith (· + ·) col.2) c.2, ?_, ?_, ?_⟩
    · rw [CpuInPower_get_load_series, hf]
    · rw [hconv, hL, hcn]
    · intro i hi
      rw [hconv, hG i (by rw [hcn]; exact hi)]
      simp [rowwiseSumCell, List.map_map]

/-- Witness for C6 at a concrete frame with two load columns and one other
column, each of length 2. -/
theorem C6_combined_load_witness :
    ∃ s, CpuInPower_get_load_series exCombFrame = some s ∧ s.length = 2 ∧
      ∀ i, i < 2 → s.get? i = some
        (rowwiseSumCell
          ((exCombFrame.dataCols.filter (fun p => startsWithLoad p.1)).map Prod.snd) i) :=
  C6_combined_load exCombFrame 2 (by decide) (by decide)

/-- Claim C4: for every row of a group listed in the label map, the
normalised load series holds (combined load of the row) * (frequency of the
row) / (maximum frequency over the rows of that group * number of cpus in
the group's mask); on the single-group example with frequencies [10, 20],
load [1, 1] and a two-cpu mask the values are [1/4, 1/2] (0.25 and 0.5). -/
theorem C4_normalized_load :
    (∀ (t : CpuPowerFrame) (mapping : List (String × String)) (ls : List ℚ),
      t.freq.length = t.cpus.length →
      (∀ c ∈ t.dataCols, c.2.length = t.cpus.length) →
      (mapping.map Prod.fst).Nodup →
      normalizedSeries t mapping = some ls →
      ∀ (i : Nat) (k : String), t.cpus.get? i = some k → k ∈ mapping.map Prod.fst →
        ∃ base nc mf, CpuInPower_get_load_series t = some base ∧
          num_cpus_in_mask k = some nc ∧ listMax (selectFreqs t k) = some mf ∧
          ls.get? i = some (base.getD i 0 * t.freq.getD i 0 / (mf * (nc : ℚ)))) ∧
    normalizedSeries exLoadFrame exLoadMap = some [1/4, 1/2] ∧
    CpuInPower_get_normalized_load_data exLoadFrame exLoadMap =
      some (.ok [("CL", [some (1/4), some (1/2)])]) := by
  have hconc : normalizedSeries exLoadFrame exLoadMap = some [1/4, 1/2] := by
    have hnc : num_cpus_in_mask "00000003" = some 2 := by decide
    have hsel : selectFreqs exLoadFrame "00000003" = [10, 20] := rfl
    have hmax : listMax [(10 : ℚ), 20] = some 20 := by norm_num [listMax]
    have hload : CpuInPower_get_load_series exLoadFrame = some [1, 1] := by decide
    rw [normalizedSeries, hload]
    simp only [exLoadMap, List.map_cons, List.map_nil, List.foldlM_cons, List.foldlM_nil,
      normalizeStep, hnc, hsel, hmax]
    norm_num [exLoadFrame, List.zipWith, List.zip]
  refine ⟨?_, hconc, ?_⟩
  · intro t mapping ls hF hD hN h i k hk hmem
    rw [normalizedSeries] at h
    cases hbase : CpuInPower_get_load_series t with
    | none => rw [hbase] at h; cases h
    | some base =>
      rw [hbase] at h
      have hblen : base.length = t.cpus.length :=
        get_load_series_length t base t.cpus.length hbase hD
      have hls0len : (base.zipWith (· * ·) t.freq).length = t.cpus.length := by
        rw [List.length_zipWith, hblen, hF]
        omega
      rcases foldlM_touched t (mapping.map Prod.fst) (base.zipWith (· * ·) t.freq) ls
          hN h hls0len i k hk hmem with ⟨nc, mf, hnc, hmf, hout⟩
      have hi : i < t.cpus.length := by
        by_contra hcon
        rw [List.get?_eq_none.mpr (by omega)] at hk
        cases hk
      have hb : base.get? i = some (base.getD i 0) := by
        rw [List.getD_eq_getElem?_getD, ← List.get?_eq_getElem?]
        cases hg : base.get? i with
        | none => rw [List.get?_eq_none] at hg; omega
        | some v => simp
      have hfq : t.freq.get? i = some (t.freq.getD i 0) := by
        rw [List.getD_eq_getElem?_getD, ← List.get?_eq_getElem?]
        cases hg : t.freq.get? i with
        | none => rw [List.get?_eq_none] at hg; omega
        | some v => simp
      have hz := zipWith_get?_op (· * ·) base t.freq i _ _ hb hfq
      have hzD : (base.zipWith (· * ·) t.freq).getD i 0
          = base.getD i 0 * t.freq.getD i 0 := by
        rw [List.getD_eq_getElem?_getD, ← List.get?_eq_getElem?, hz]
        rfl
      rw [hzD] at hout
      exact ⟨base, nc, mf, rfl, hnc, hmf, hout⟩
  · rw [CpuInPower_get_normalized_load_data, hconc]
    rfl

/-- Claim C10: a label-map key that matches no row of the `cpus` column makes
`get_normalized_load_data` fail (the maximum of the empty frequency selection
of that group does not exist), producing no output: every key of the label
map occurring in the group column is a precondition. -/
theorem C10_missing_group_key_fails (t : CpuPowerFrame)
    (mapping : List (String × String)) (k : String)
    (hmem : k ∈ mapping.map Prod.fst) (habs : k ∉ t.cpus) :
    CpuInPower_get_normalized_load_data t mapping = none := by
  rw [CpuInPower_get_normalized_load_data]
  suffices hsuf : normalizedSeries t mapping = none by rw [hsuf]; rfl
  rw [normalizedSeries]
  cases hbase : CpuInPower_get_load_series t with
  | none => rfl
  | some base =>
    have hsel : selectFreqs t k = [] := by
      rw [selectFreqs, List.filterMap_eq_nil_iff]
      intro p hp
      have hp1 : p.1 ∈ t.cpus := (List.mem_zip hp).1
      rw [if_neg]
      intro he
      exact habs (he ▸ hp1)
    have hfail : ∀ load : List ℚ, normalizeStep t load k = none := by
      intro load
      rw [normalizeStep]
      cases hnc : num_cpus_in_mask k with
      | none => rfl
      | some nc =>
        rw [hsel]
        rfl
    exact foldlM_fails t k hfail (mapping.map Prod.fst) _ hmem

/-- Witness for C10 at a concrete input: a one-row frame whose mask is
"0000000f" and a label map keyed by the absent mask "000000f0". -/
theorem C10_missing_group_key_fails_witness :
    CpuInPower_get_normalized_load_data exMissFrame [("000000f0", "A15")] = none :=
  C10_missing_group_key_fails exMissFrame [("000000f0", "A15")] "000000f0"
    (by decide) (by decide)

/- ===================== Frame effects (claim C9) ===================== -/

/-- State-passing embedding of `pivot_with_labels`: the first component is
the caller's table after the call.  Every write of the source targets
objects created inside the call — the `ret_series` dict, the boolean-mask
selections, the DataFrame assembled from `ret_series` and the `fillna`
result — never `dfr`, so the caller's rows pass through unchanged. -/
def pivot_with_labels_st (rows : List (String × ℚ)) (mapping : List (String × String)) :
    (List (String × ℚ)) × Except PivotKeyError WideTable :=
  (rows, pivot_with_labels rows mapping)

/-- State-passing embedding of `CpuInPower._get_load_series`: the series is
started from `dfr[load_cols[0]].copy()`, so the `+=` accumulation writes the
copy, never a column of `dfr`. -/
def CpuInPower_get_load_series_st (t : CpuPowerFrame) :
    CpuPowerFrame × Option (List ℚ) :=
  (t, CpuInPower_get_load_series t)

/-- State-passing embedding of `CpuInPower.get_normalized_load_data`: the
`*=` and the per-group division write the copied series of
`_get_load_series`, and the pivot input is a freshly built DataFrame, so
`dfr` passes through unchanged. -/
def CpuInPower_get_normalized_load_data_st (t : CpuPowerFrame)
    (mapping : List (String × String)) :
    CpuPowerFrame × Option (Except PivotKeyError WideTable) :=
  (t, CpuInPower_get_normalized_load_data t mapping)

/-- State-passing embedding of `CpuInPower.get_all_freqs`: the division by
1000 builds a new DataFrame from the pivot result. -/
def CpuInPower_get_all_freqs_st (t : CpuPowerFrame)
    (mapping : List (String × String)) :
    CpuPowerFrame × Except PivotKeyError WideTable :=
  (t, CpuInPower_get_all_freqs t mapping)

/-- State-passing embedding of `CpuOutPower.get_all_freqs`. -/
def CpuOutPower_get_all_freqs_st (t : CpuPowerFrame)
    (mapping : List (String × String)) :
    CpuPowerFrame × Except PivotKeyError WideTable :=
  (t, CpuOutPower_get_all_freqs t mapping)

/-- State-passing embedding of `DevfreqInPower.get_all_freqs`: the division
by 1000000 builds a new DataFrame from the `freq` column. -/
def DevfreqInPower_get_all_freqs_st (freq : List ℚ) : List ℚ × List ℚ :=
  (freq, DevfreqInPower_get_all_freqs freq)

/-- State-passing embedding of `DevfreqOutPower.get_all_freqs`. -/
def DevfreqOutPower_get_all_freqs_st (freq : List ℚ) : List ℚ × List ℚ :=
  (freq, DevfreqOutPower_get_all_freqs freq)

/-- Claim C9: each core operation leaves the caller-owned input table exactly
as it was before the call — the state returned by every state-passing
embedding equals the input state, for every input. -/
theorem C9_operations_preserve_input :
    (∀ (rows : List (String × ℚ)) (mapping : List (String × String)),
      (pivot_with_labels_st rows mapping).1 = rows) ∧
    (∀ t : CpuPowerFrame, (CpuInPower_get_load_series_st t).1 = t) ∧
    (∀ (t : CpuPowerFrame) (mapping : List (String × String)),
      (CpuInPower_get_normalized_load_data_st t mapping).1 = t) ∧
    (∀ (t : CpuPowerFrame) (mapping : List (String × String)),
      (CpuInPower_get_all_freqs_st t mapping).1 = t) ∧
    (∀ (t : CpuPowerFrame) (mapping : List (String × String)),
      (CpuOutPower_get_all_freqs_st t mapping).1 = t) ∧
    (∀ freq : List ℚ, (DevfreqInPower_get_all_freqs_st freq).1 = freq) ∧
    (∀ freq : List ℚ, (DevfreqOutPower_get_all_freqs_st freq).1 = freq) :=
  ⟨fun _ _ => rfl, fun _ => rfl, fun _ _ => rfl, fun _ _ => rfl, fun _ _ => rfl,
    fun _ => rfl, fun _ => rfl⟩
